import Mathlib

/-!
Verification of the M3G Blender exporter (`src/m3g_exporter_v1_2.py`).

The definitions below are shallow embeddings, translated directly from the
Python source.  Bytes are modelled as natural numbers (< 256 in well-formed
data), byte strings as `List Nat`, Python `int` as `Int` / `Nat`, and the
exact floating-point values occurring in the claims as rationals `ℚ`
(all concrete inputs used in counterexamples and witnesses are dyadic
rationals on which IEEE-754 double arithmetic is exact).
-/

namespace M3G

/-! ## Binary section framing (`M3GSectionObject`, `M3GSection`)

`struct.pack('<I', n)` emits the four little-endian bytes of `n`
(and raises for `n ≥ 2^32`, in which case no section is emitted);
`le32` is that byte encoding. -/
def le32 (n : Nat) : List Nat :=
  [n % 256, n / 256 % 256, n / 256 ^ 2 % 256, n / 256 ^ 3 % 256]

/-- Decode four little-endian bytes back to the integer they denote. -/
def decodeLE32 (bs : List Nat) : Nat :=
  bs.getD 0 0 + 256 * bs.getD 1 0 + 256 ^ 2 * bs.getD 2 0 + 256 ^ 3 * bs.getD 3 0

/-- An object handed to the framer: its 1-byte type tag and the payload
bytes produced by its `getData`. -/
structure SectionObject where
  ObjectType : Nat
  data : List Nat

/-- `M3GSectionObject.getData`: `struct.pack('<BI', type, len) + data`. -/
def SectionObject.getData (o : SectionObject) : List Nat :=
  o.ObjectType :: le32 o.data.length ++ o.data

/-- The fields computed by `M3GSection.__init__`. -/
structure Section where
  CompressionScheme : Nat
  TotalSectionLength : Nat
  UncompressedLength : Nat
  Objects : List Nat

/-- Concatenated object records, as built by the loop in
`M3GSection.__init__`. -/
def concatRecords (objs : List SectionObject) : List Nat :=
  objs.foldl (fun acc o => acc ++ o.getData) []

/-- `M3GSection.__init__`. -/
def mkSection (objs : List SectionObject) : Section :=
  let recs := concatRecords objs
  { CompressionScheme := 0
    TotalSectionLength := 13 + recs.length
    UncompressedLength := recs.length
    Objects := recs }

/-- `M3GSection.ownAdler32`, one step of the loop body. -/
def adlerStep (p : Nat × Nat) (n : Nat) : Nat × Nat :=
  let s1 := (p.1 + n) % 65521
  (s1, (p.2 + s1) % 65521)

/-- `M3GSection.ownAdler32`: two accumulators starting at `s1 = 1`,
`s2 = 0`, folded over the data, combined as `(s2 << 16) + s1`. -/
def ownAdler32 (data : List Nat) : Nat :=
  let p := data.foldl adlerStep (1, 0)
  (p.2 <<< 16) + p.1

/-- The Adler-32 combination as the spec words it: `(s2 << 16) | s1`. -/
def specAdler32 (data : List Nat) : Nat :=
  let p := data.foldl adlerStep (1, 0)
  (p.2 <<< 16) ||| p.1

/-- `M3GSection.getData`: scheme byte, both length fields, payload,
then the Adler-32 checksum of everything so far. -/
def Section.getData (s : Section) : List Nat :=
  let pre := s.CompressionScheme :: le32 s.TotalSectionLength ++
    le32 s.UncompressedLength ++ s.Objects
  pre ++ le32 (ownAdler32 pre)

/-! ## ID assignment (`M3GExporter.start`)

`start` splits the deep-search result into external references and the
remaining export list, then runs one shared counter `i` starting at 1,
incrementing before each assignment (`i += 1; element.id = i`), first
over the external references and then over the export list.  Objects are
abstract (`α`); the model returns each object paired with the ID the loop
stores into it, together with the final counter value. -/
def assignIdsLoop {α : Type} (i : Nat) : List α → List (α × Nat) × Nat
  | [] => ([], i)
  | x :: rest =>
    let r := assignIdsLoop (i + 1) rest
    ((x, i + 1) :: r.1, r.2)

/-- The two loops of `M3GExporter.start`, sharing the counter. -/
def exporterAssignIds {α : Type} (externalReferences exportList : List α) :
    List (α × Nat) :=
  let ext := assignIdsLoop 1 externalReferences
  let objs := assignIdsLoop ext.2 exportList
  ext.1 ++ objs.1

/-! ## Face triangulation (`M3GTranslator.translateFaces`)

The per-face part of the loop: `triangleStrips` accumulates a flat index
list and a parallel strip-length list; a face is its list of
vertex-buffer indices (`indices` in the Python, one entry per corner). -/
structure TriangleStrips where
  indices : List Nat
  stripLengths : List Nat

/-- The `num_verts`-dispatch at the end of the face loop in
`translateFaces`.  `face.getD k 0` is `indices[k]`. -/
def translateFaceStep (ts : TriangleStrips) (face : List Nat) : TriangleStrips :=
  if face.length = 3 then
    { stripLengths := ts.stripLengths ++ [3]
      indices := ts.indices ++ [face.getD 0 0, face.getD 1 0, face.getD 2 0] }
  else if face.length = 4 then
    { stripLengths := ts.stripLengths ++ [4]
      indices := ts.indices ++ [face.getD 1 0, face.getD 2 0, face.getD 0 0, face.getD 3 0] }
  else
    (List.range' 1 (face.length - 2)).foldl
      (fun acc i =>
        { stripLengths := acc.stripLengths ++ [3]
          indices := acc.indices ++ [face.getD 0 0, face.getD i 0, face.getD (i + 1) 0] })
      ts

/-- The whole loop over the mesh's faces. -/
def translateFaces (faces : List (List Nat)) : TriangleStrips :=
  faces.foldl translateFaceStep ⟨[], []⟩

/-- The fan triangles `(0, i, i+1)` for `i = 1 … n-2`, flattened. -/
def fanIndices (face : List Nat) : List Nat :=
  (List.range' 1 (face.length - 2)).flatMap
    (fun i => [face.getD 0 0, face.getD i 0, face.getD (i + 1) 0])

/-! ## Bone vertex runs (`M3GBone.createReferences`)

Vertex indices are Python ints (`last = verts[0] - 1` may be negative),
so they are modelled as `Int`.  `M3GBone.createReferences` sorts
`self.verts` in place and then run-length-encodes it with the state
variables `last`, `list` (the current run) and `ref` (finished runs). -/
structure M3GBoneReference where
  firstVertex : Int
  vertexCount : Nat
deriving DecidableEq, Repr

/-- Flushing the current run: `if len(list) > 0: ref.append(...)`. -/
def flushRun : List Int → List M3GBoneReference
  | [] => []
  | x :: xs => [⟨x, (x :: xs).length⟩]

/-- The `for vert in self.verts` loop of `createReferences`, including
the final flush after the loop. -/
def runLoop (last : Int) (cur : List Int) (refs : List M3GBoneReference) :
    List Int → List M3GBoneReference
  | [] => refs ++ flushRun cur
  | v :: rest =>
    if v = last + 1 then runLoop v (cur ++ [v]) refs rest
    else runLoop v [v] (refs ++ flushRun cur) rest

/-- `M3GBone.createReferences`: early-return on an empty vertex list,
otherwise sort and run the encoding loop starting from
`last = verts[0] - 1` (so the first vertex always opens a run). -/
def createReferences (verts : List Int) : List M3GBoneReference :=
  match verts with
  | [] => []
  | _ :: _ =>
    let sorted := verts.insertionSort (· ≤ ·)
    runLoop (sorted.headD 0 - 1) [] [] sorted

/-- The vertex indices denoted by one `(firstVertex, vertexCount)`
reference. -/
def expandRef (r : M3GBoneReference) : List Int :=
  (List.range r.vertexCount).map (fun k : Nat => r.firstVertex + (k : Int))

/-- Clean recursive grouping of a list into maximal runs, used as the
specification the loop is proved equal to. -/
def groupRuns (start : Int) (count : Nat) : List Int → List M3GBoneReference
  | [] => [⟨start, count⟩]
  | w :: rest =>
    if w = start + count then groupRuns start (count + 1) rest
    else ⟨start, count⟩ :: groupRuns w 1 rest

/-- Maximality of runs: a later run never continues the previous one. -/
def runGap (a b : M3GBoneReference) : Prop :=
  a.firstVertex + a.vertexCount < b.firstVertex

/-! ## Vertex-array autoscaling quantization (`M3GVertexArray.internalAutoScaling`)

Floats are modelled as exact rationals; all concrete inputs used below
are dyadic, so IEEE-754 double arithmetic computes them exactly.
`array('f'/'b'/'h')` typecode switching is modelled by the `Components`
sum: the array holds raw floats before quantization and integers
afterwards. -/
inductive Components where
  | floats (l : List ℚ)
  | ints (l : List Int)
deriving DecidableEq

structure M3GVertexArray where
  componentSize : Nat
  componentCount : Nat
  autoscaling : Bool
  uvmapping : Bool
  bias : List ℚ
  scale : ℚ
  components : Components
deriving DecidableEq

/-- Python `int(x)`: truncation toward zero. -/
def pyInt (q : ℚ) : Int :=
  if q < 0 then ⌈q⌉ else ⌊q⌋

/-- The clamping at the end of the quantization loop. -/
def clampComp (componentSize : Nat) (e : Int) : Int :=
  if componentSize = 1 then max (-127) (min 127 e)
  else max (-32767) (min 32767 e)

/-- The number of iterations of `range(0, len(components), componentCount)`. -/
def numRows (c : Nat) (len : Nat) : Nat :=
  (len + c - 1) / c

/-- Step 1 of `internalAutoScaling`: the loop
`for i in range(0, len(components), componentCount):
components[i+1] = 1.0 - components[i+1]` (only ever used with
`componentCount = 2`, where every `i+1` is in range). -/
def flipV (c : Nat) (comps : List ℚ) : List ℚ :=
  (List.range (numRows c comps.length)).foldl
    (fun l i => l.set (i * c + 1) (1 - l.getD (i * c + 1) 0)) comps

/-- `minimum[j]` after the scan loop: seeded with `components[j]`, then
lowered whenever a smaller entry of column `j` is seen. -/
def colMin (c : Nat) (comps : List ℚ) (j : Nat) : ℚ :=
  (List.range (numRows c comps.length)).foldl
    (fun m i => if comps.getD (i * c + j) 0 < m then comps.getD (i * c + j) 0 else m)
    (comps.getD j 0)

/-- `maximum[j]` after the scan loop. -/
def colMax (c : Nat) (comps : List ℚ) (j : Nat) : ℚ :=
  (List.range (numRows c comps.length)).foldl
    (fun m i => if m < comps.getD (i * c + j) 0 then comps.getD (i * c + j) 0 else m)
    (comps.getD j 0)

/-- Step 3's `self.bias[i] = minimum[i]*0.5 + maximum[i]*0.5` for
`i < componentCount` (the bias list keeps its other entries). -/
def updateBias (c : Nat) (comps : List ℚ) (bias : List ℚ) : List ℚ :=
  (List.range c).foldl
    (fun b j => b.set j (colMin c comps j * (1 / 2) + colMax c comps j * (1 / 2)))
    bias

/-- Step 3's running maximum of the per-component ranges, seeded with 0. -/
def maxRangeOf (c : Nat) (comps : List ℚ) : ℚ :=
  (List.range c).foldl
    (fun m j => if m < colMax c comps j - colMin c comps j
      then colMax c comps j - colMin c comps j else m)
    0

/-- Step 4: `maxValue = (2**(8*componentSize)) - 2.0` and the scale with
its near-zero-range guard (`maxRange < 1e-10`). -/
def scaleOf (s : M3GVertexArray) (comps : List ℚ) : ℚ :=
  if maxRangeOf s.componentCount comps < 1 / 10 ^ 10 then
    1 / (2 ^ (8 * s.componentSize) - 2)
  else maxRangeOf s.componentCount comps / (2 ^ (8 * s.componentSize) - 2)

/-- Step 5: the rebuilt integer component array, reading the freshly
written `self.bias[j]` and `self.scale`. -/
def quantized (s : M3GVertexArray) (comps : List ℚ) : List Int :=
  (List.range (numRows s.componentCount comps.length)).flatMap (fun i =>
    (List.range s.componentCount).map (fun j =>
      clampComp s.componentSize
        (pyInt ((comps.getD (i * s.componentCount + j) 0 -
          (updateBias s.componentCount comps s.bias).getD j 0) / scaleOf s comps))))

/-- Steps 2–5 of `internalAutoScaling` once the guard has passed and the
UV flip (step 1) has been applied: compute per-component min/max, bias,
the shared scale with its near-zero-range guard, and rebuild the
component array as clamped truncated integers. -/
def autoScaleCore (s : M3GVertexArray) (comps : List ℚ) : M3GVertexArray :=
  { s with bias := updateBias s.componentCount comps s.bias
           scale := scaleOf s comps
           components := .ints (quantized s comps) }

/-- `M3GVertexArray.internalAutoScaling`: early-return unless the array
is autoscaled and still holds raw floats (`typecode == "f"`). -/
def internalAutoScaling (s : M3GVertexArray) : M3GVertexArray :=
  match s.components with
  | .ints _ => s
  | .floats comps0 =>
    if s.autoscaling then
      autoScaleCore s (if s.uvmapping then flipV s.componentCount comps0 else comps0)
    else s

/-! ## NLA-track validation (`M3GTranslator.validate_all_nla_tracks`,
`M3GTranslator.start`, `M3GExporter.start`)

A scene object is modelled by its name and NLA track list (an object
without animation data has an empty list).  A Python `raise` in
sequential code is an `Except.error` that propagates through the callers
(`M3GTranslator.start` and `M3GExporter.start` contain no handler).
Translation and file writing are recorded as events so that the theorem
can state that an aborted export performs neither. -/
structure NlaTrack where
  mute : Bool

structure SceneObj where
  name : String
  nla_tracks : List NlaTrack

/-- `[t for t in obj.animation_data.nla_tracks if not t.mute]`. -/
def activeTrackCount (o : SceneObj) : Nat :=
  (o.nla_tracks.filter (fun t => !t.mute)).length

/-- `validate_all_nla_tracks`: raises on the first object with more than
one active (unmuted) track. -/
def validateAllNlaTracks : List SceneObj → Except String Unit
  | [] => .ok ()
  | o :: rest =>
    if 1 < activeTrackCount o then
      .error ("ERROR: Object '" ++ o.name ++ "' has multiple active NLA tracks.")
    else validateAllNlaTracks rest

inductive ExportEvent where
  | translated (idx : Nat)
  | fileWritten
deriving DecidableEq

/-- `M3GTranslator.start`: validation runs first (line 1575); only then
is each scene object translated (the loop at lines 1587–1597). -/
def translatorStart (objs : List SceneObj) : Except String (List ExportEvent) := do
  let _ ← validateAllNlaTracks objs
  pure ((List.range objs.length).map ExportEvent.translated)

/-- `M3GExporter.start`: run the translator, then serialize and write
the file (`writer.writeFile`, reached only if translation returned). -/
def exporterStart (objs : List SceneObj) : Except String (List ExportEvent) := do
  let evs ← translatorStart objs
  pure (evs ++ [ExportEvent.fileWritten])

/-! ## Image deduplication cache (`ImageFactory`)

`ImageFactory.images = {}` is a **class attribute**; `getImage` is a
classmethod reading and writing `cls.images`, and nothing ever resets
it, so the mapping persists across export invocations.  Object identity
of newly constructed `M3GImage2D` / `M3GExternalReference` instances is
modelled by a creation counter; the URI/pixel payload of the created
object is irrelevant to cache scoping and elided. -/
inductive ImageObject where
  | externalReference (creationIdx : Nat)
  | image2D (creationIdx : Nat)
deriving DecidableEq

structure ImageFactoryState where
  images : List (String × ImageObject)
  nextId : Nat
deriving DecidableEq

/-- The module-load-time value of the class attribute `images = {}`. -/
def factoryInit : ImageFactoryState := ⟨[], 0⟩

/-- `ImageFactory.getImage`: return the cached object for the path if
present, otherwise construct an `M3GExternalReference` or `M3GImage2D`
and record it under the path in `cls.images`. -/
def getImage (st : ImageFactoryState) (filename : String)
    (externalReference : Bool) : ImageObject × ImageFactoryState :=
  match st.images.lookup filename with
  | some ref => (ref, st)
  | none =>
    if externalReference then
      (ImageObject.externalReference st.nextId,
        { images := (filename, ImageObject.externalReference st.nextId) :: st.images
          nextId := st.nextId + 1 })
    else
      (ImageObject.image2D st.nextId,
        { images := (filename, ImageObject.image2D st.nextId) :: st.images
          nextId := st.nextId + 1 })

/-! ## Closure walk (`doSearchDeep` and the `searchDeep` methods)

Every `searchDeep` method in the source has the same shape: fold
`searchDeep` over the object's direct references in a fixed order
(`doSearchDeep` skips `None` entries), then append `self` if it is not
already present (`if self not in alist: alist.append(self)`; these
classes define no `__eq__`, so `in` is identity-based).  The reference
order per class is: `World`: `[activeCamera, background]`, then children,
then animation tracks; `Group`: children then tracks; `Mesh`: vertex
buffer, index buffers, appearances, then tracks (`SkinnedMesh` prepends
its skeleton); `VertexBuffer`: positions, normals, colors, texture-
coordinate arrays, then tracks; `Appearance`: compositing mode, fog,
polygon mode, material, textures, then tracks; `Texture2D`: its image,
then tracks; `AnimationTrack`: keyframe sequence and controller, then
tracks; leaf objects: just their tracks.  Objects are identified with
naturals and the per-object ordered reference list is abstracted as
`refs : Nat → List Nat`.  The Python recursion terminates exactly on
acyclic graphs; acyclicity is witnessed by a rank function `rk`
decreasing along references, and the recursion is embedded with a fuel
parameter that any `fuel > rk root` makes equivalent to it. -/
def searchDeep (refs : Nat → List Nat) : Nat → Nat → List Nat → List Nat
  | 0, _, alist => alist
  | fuel + 1, n, alist =>
    let l := (refs n).foldl (fun acc r => searchDeep refs fuel r acc) alist
    if n ∈ l then l else l ++ [n]

/-- `r` occurs at a strictly earlier position than `m` in `L`. -/
def Before (r m : Nat) (L : List Nat) : Prop :=
  ∃ i j, i < j ∧ L.get? i = some r ∧ L.get? j = some m

/-- The dependency-order invariant: every collected object's direct
references appear at earlier positions. -/
def ClosedList (refs : Nat → List Nat) (L : List Nat) : Prop :=
  ∀ m ∈ L, ∀ r ∈ refs m, Before r m L

/-- A concrete diamond-shaped graph: a World-like root 0 referencing
two meshes 1 and 2 that share one texture 3. -/
def exRefs (n : Nat) : List Nat :=
  if n = 0 then [1, 2] else if n = 1 then [3] else if n = 2 then [3] else []

/-! ## Theorems -/

/-! ### Helper lemmas for the framing theorems -/
theorem le32_length (n : Nat) : (le32 n).length = 4 := rfl

theorem decodeLE32_le32 (n : Nat) (h : n < 2 ^ 32) : decodeLE32 (le32 n) = n := by
  simp only [le32, decodeLE32, List.getD, List.get?, Option.getD_some]
  omega

theorem adlerStep_bound (p : Nat × Nat) (n : Nat) :
    (adlerStep p n).1 < 65521 ∧ (adlerStep p n).2 < 65521 :=
  ⟨Nat.mod_lt _ (by norm_num), Nat.mod_lt _ (by norm_num)⟩

theorem adler_fold_bound (data : List Nat) (p : Nat × Nat)
    (hp : p.1 < 65521 ∧ p.2 < 65521) :
    (data.foldl adlerStep p).1 < 65521 ∧ (data.foldl adlerStep p).2 < 65521 := by
  induction data generalizing p with
  | nil => exact hp
  | cons n rest ih => exact ih _ (adlerStep_bound p n)

theorem lor_sixteen_eq_add (a b : Nat) (h : b < 2 ^ 16) :
    (a <<< 16) ||| b = (a <<< 16) + b := by
  rw [Nat.shiftLeft_eq]
  apply Nat.eq_of_testBit_eq
  intro i
  rw [Nat.testBit_or, Nat.mul_comm, Nat.testBit_mul_pow_two_add a h i]
  rcases Nat.lt_or_ge i 16 with hi | hi
  · simp only [hi, if_pos, Nat.testBit_mul_pow_two]
    simp [Nat.not_le.mpr hi]
  · simp only [Nat.not_lt.mpr hi, if_neg, if_false]
    simp only [Nat.testBit_mul_pow_two, hi]
    have hb : b < 2 ^ i := lt_of_lt_of_le h (Nat.pow_le_pow_right (by norm_num) hi)
    simp [Nat.testBit_lt_two_pow hb, Nat.le_of_lt]

theorem ownAdler32_eq_specAdler32 (data : List Nat) :
    ownAdler32 data = specAdler32 data := by
  unfold ownAdler32 specAdler32
  have h := adler_fold_bound data (1, 0) (by norm_num)
  exact (lor_sixteen_eq_add _ _ (lt_trans h.1 (by norm_num))).symm

theorem section_getData_decomp (objs : List SectionObject) :
    (mkSection objs).getData =
      (0 :: le32 (13 + (concatRecords objs).length) ++
        le32 (concatRecords objs).length ++ concatRecords objs) ++
      le32 (ownAdler32 (0 :: le32 (13 + (concatRecords objs).length) ++
        le32 (concatRecords objs).length ++ concatRecords objs)) := rfl

theorem section_getData_cons (objs : List SectionObject) :
    (mkSection objs).getData =
      0 :: (le32 (13 + (concatRecords objs).length) ++
        (le32 (concatRecords objs).length ++ (concatRecords objs ++
          le32 (ownAdler32 (0 :: le32 (13 + (concatRecords objs).length) ++
            le32 (concatRecords objs).length ++ concatRecords objs))))) := by
  rw [section_getData_decomp]
  simp [List.append_assoc]

/-- C1: for every section emitted by the framer, the 4-byte
`uncompressedLen` field (bytes 5–8 of the section) decodes to the exact
byte length of the concatenated object records, and the 4-byte `totalLen`
field (bytes 1–4) decodes to `13 + uncompressedLen`; the fields stored by
`M3GSection.__init__` satisfy the same relation.  The bound is the range
of `struct.pack('<I', ...)`: a section with a larger length raises
instead of being emitted. -/
theorem framer_section_length_fields (objs : List SectionObject)
    (h : 13 + (concatRecords objs).length < 2 ^ 32) :
    (mkSection objs).UncompressedLength = (concatRecords objs).length ∧
    (mkSection objs).TotalSectionLength = 13 + (mkSection objs).UncompressedLength ∧
    decodeLE32 (((mkSection objs).getData.drop 5).take 4) =
      (concatRecords objs).length ∧
    decodeLE32 (((mkSection objs).getData.drop 1).take 4) =
      13 + (concatRecords objs).length := by
  refine ⟨rfl, rfl, ?_, ?_⟩
  · rw [section_getData_cons, List.drop_succ_cons,
      List.drop_left' (le32_length _), List.take_left' (le32_length _)]
    exact decodeLE32_le32 _ (by omega)
  · rw [section_getData_cons, List.drop_succ_cons, List.drop_zero,
      List.take_left' (le32_length _)]
    exact decodeLE32_le32 _ h

/-- C1 witness: a concrete section made of one object record of type 1
with a 2-byte payload; its record block is 7 bytes long, the stored
lengths are 7 and 20, and both length fields decode accordingly. -/
theorem framer_section_length_fields_witness :
    13 + (concatRecords [⟨1, [7, 8]⟩]).length < 2 ^ 32 ∧
    (mkSection [⟨1, [7, 8]⟩]).UncompressedLength =
      (concatRecords [⟨1, [7, 8]⟩]).length ∧
    (mkSection [⟨1, [7, 8]⟩]).TotalSectionLength =
      13 + (mkSection [⟨1, [7, 8]⟩]).UncompressedLength ∧
    decodeLE32 (((mkSection [⟨1, [7, 8]⟩]).getData.drop 5).take 4) =
      (concatRecords [⟨1, [7, 8]⟩]).length ∧
    decodeLE32 (((mkSection [⟨1, [7, 8]⟩]).getData.drop 1).take 4) =
      13 + (concatRecords [⟨1, [7, 8]⟩]).length :=
  ⟨by decide, framer_section_length_fields [⟨1, [7, 8]⟩] (by decide)⟩

/-- C2: the code's `ownAdler32` agrees everywhere with the Adler-32
algorithm as the spec words it (`s1` starting at 1 and `s2` at 0, each
reduced mod 65521 per byte, combined as `(s2<<16)|s1`), and for every
emitted section the trailing 4 bytes of `getData` are exactly the
little-endian encoding of that checksum computed over all preceding
section bytes (scheme byte, both length fields, and the payload). -/
theorem section_trailing_adler32 :
    (∀ data : List Nat, ownAdler32 data = specAdler32 data) ∧
    ∀ objs : List SectionObject,
      ((mkSection objs).getData).drop ((mkSection objs).getData.length - 4) =
        le32 (specAdler32 (((mkSection objs).getData).take
          ((mkSection objs).getData.length - 4))) := by
  refine ⟨ownAdler32_eq_specAdler32, fun objs => ?_⟩
  rw [section_getData_decomp]
  have hlen : ((0 :: le32 (13 + (concatRecords objs).length) ++
      le32 (concatRecords objs).length ++ concatRecords objs) ++
      le32 (ownAdler32 (0 :: le32 (13 + (concatRecords objs).length) ++
        le32 (concatRecords objs).length ++ concatRecords objs))).length - 4 =
      (0 :: le32 (13 + (concatRecords objs).length) ++
        le32 (concatRecords objs).length ++ concatRecords objs).length := by
    rw [List.length_append, le32_length]
    omega
  rw [hlen, List.drop_left, List.take_left, ownAdler32_eq_specAdler32]

theorem assignIdsLoop_counter {α : Type} (l : List α) (i : Nat) :
    (assignIdsLoop i l).2 = i + l.length := by
  induction l generalizing i with
  | nil => simp [assignIdsLoop]
  | cons x rest ih => simp [assignIdsLoop, ih]; omega

theorem assignIdsLoop_fst {α : Type} (l : List α) (i : Nat) :
    ((assignIdsLoop i l).1).map Prod.fst = l := by
  induction l generalizing i with
  | nil => rfl
  | cons x rest ih => simp [assignIdsLoop, ih]

theorem assignIdsLoop_snd {α : Type} (l : List α) (i : Nat) :
    ((assignIdsLoop i l).1).map Prod.snd =
      (List.range l.length).map (fun k => i + 1 + k) := by
  induction l generalizing i with
  | nil => rfl
  | cons x rest ih =>
    simp only [assignIdsLoop, List.map_cons, List.length_cons, List.range_succ_eq_map,
      List.map_map, ih]
    congr 1
    apply List.map_congr_left
    intro k _
    simp only [Function.comp]
    omega

theorem exporterAssignIds_ids {α : Type} (ext rest : List α) :
    (exporterAssignIds ext rest).map Prod.snd =
      (List.range (ext.length + rest.length)).map (fun k => 2 + k) := by
  unfold exporterAssignIds
  rw [List.map_append, assignIdsLoop_snd, assignIdsLoop_snd, assignIdsLoop_counter]
  rw [List.range_add, List.map_append, List.map_map]
  congr 1
  apply List.map_congr_left
  intro k _
  simp only [Function.comp]
  omega

/-- C3: object IDs are assigned sequentially starting at 2, first to the
external references then to the remaining export list in collected
order: the assignment keeps the combined collected order, the assigned
IDs are exactly `2, 3, …` in that order (hence strictly increasing, so
no two entries share an ID), every assigned ID is `≥ 2`, and neither ID
0 nor ID 1 is ever assigned. -/
theorem exporter_id_assignment {α : Type} (ext rest : List α) :
    (exporterAssignIds ext rest).map Prod.fst = ext ++ rest ∧
    (exporterAssignIds ext rest).map Prod.snd =
      (List.range (ext.length + rest.length)).map (fun k => 2 + k) ∧
    ((exporterAssignIds ext rest).map Prod.snd).Chain' (· < ·) ∧
    (∀ p ∈ exporterAssignIds ext rest, 2 ≤ p.2) ∧
    0 ∉ (exporterAssignIds ext rest).map Prod.snd ∧
    1 ∉ (exporterAssignIds ext rest).map Prod.snd := by
  have hids := exporterAssignIds_ids ext rest
  have hmem : ∀ n ∈ (exporterAssignIds ext rest).map Prod.snd, 2 ≤ n := by
    intro n hn
    rw [hids] at hn
    obtain ⟨k, _, hk⟩ := List.mem_map.mp hn
    omega
  refine ⟨?_, hids, ?_, ?_, fun h => by have := hmem 0 h; omega,
    fun h => by have := hmem 1 h; omega⟩
  · unfold exporterAssignIds
    rw [List.map_append, assignIdsLoop_fst, assignIdsLoop_fst]
  · rw [hids, List.chain'_map]
    exact ((List.pairwise_lt_range _).imp (fun h => by omega)).chain'
  · intro p hp
    exact hmem p.2 (List.mem_map_of_mem Prod.snd hp)

theorem fan_foldl_spec (face : List Nat) (ts : TriangleStrips) (l : List Nat) :
    (l.foldl
      (fun acc i =>
        { stripLengths := acc.stripLengths ++ [3]
          indices := acc.indices ++ [face.getD 0 0, face.getD i 0, face.getD (i + 1) 0] })
      ts : TriangleStrips) =
      { stripLengths := ts.stripLengths ++ List.replicate l.length 3
        indices := ts.indices ++
          l.flatMap (fun i => [face.getD 0 0, face.getD i 0, face.getD (i + 1) 0]) } := by
  induction l generalizing ts with
  | nil => simp
  | cons i rest ih =>
    rw [List.foldl_cons, ih]
    simp [List.replicate_succ, List.append_assoc]

/-- C6: face triangulation.  A 3-vertex face `[a,b,c]` contributes one
strip of length 3 with the face's indices in order; a 4-vertex face
`[a,b,c,d]` contributes one strip of length 4 in the rotated order
`[b,c,a,d]` (second, third, first, fourth); a face with `n ≥ 5` vertices
contributes exactly `n−2` strips of length 3, the fan triangles
`(v₀, vᵢ, vᵢ₊₁)` for `i = 1 … n−2`. -/
theorem translate_faces_triangulation (ts : TriangleStrips) :
    (∀ a b c : Nat, translateFaceStep ts [a, b, c] =
      { stripLengths := ts.stripLengths ++ [3], indices := ts.indices ++ [a, b, c] }) ∧
    (∀ a b c d : Nat, translateFaceStep ts [a, b, c, d] =
      { stripLengths := ts.stripLengths ++ [4], indices := ts.indices ++ [b, c, a, d] }) ∧
    (∀ face : List Nat, 5 ≤ face.length →
      (translateFaceStep ts face).stripLengths =
        ts.stripLengths ++ List.replicate (face.length - 2) 3 ∧
      (translateFaceStep ts face).indices = ts.indices ++ fanIndices face) := by
  refine ⟨fun a b c => rfl, fun a b c d => rfl, fun face hf => ?_⟩
  have h3 : face.length ≠ 3 := by omega
  have h4 : face.length ≠ 4 := by omega
  rw [translateFaceStep, if_neg h3, if_neg h4, fan_foldl_spec]
  simp [fanIndices]

/-- C6 witness: a concrete 5-vertex face `[10,11,12,13,14]` decomposes
into exactly three independent strips of length 3, the fan triangles
from vertex `10`; concrete 3- and 4-vertex faces behave as stated. -/
theorem translate_faces_triangulation_witness :
    translateFaceStep ⟨[], []⟩ [7, 8, 9] = ⟨[7, 8, 9], [3]⟩ ∧
    translateFaceStep ⟨[], []⟩ [7, 8, 9, 6] = ⟨[8, 9, 7, 6], [4]⟩ ∧
    (translateFaceStep ⟨[], []⟩ [10, 11, 12, 13, 14]).stripLengths =
      [] ++ List.replicate 3 3 ∧
    (translateFaceStep ⟨[], []⟩ [10, 11, 12, 13, 14]).indices =
      [] ++ fanIndices [10, 11, 12, 13, 14] := by
  have h := translate_faces_triangulation ⟨[], []⟩
  exact ⟨h.1 7 8 9, h.2.1 7 8 9 6,
    (h.2.2 [10, 11, 12, 13, 14] (by decide)).1,
    (h.2.2 [10, 11, 12, 13, 14] (by decide)).2⟩

theorem expandRef_pos (start : Int) (count : Nat) (h : 0 < count) :
    expandRef ⟨start, count⟩ = start :: expandRef ⟨start + 1, count - 1⟩ := by
  obtain ⟨m, rfl⟩ : ∃ m, count = m + 1 := ⟨count - 1, by omega⟩
  simp only [expandRef, Nat.add_sub_cancel, List.range_succ_eq_map, List.map_cons,
    List.map_map, Nat.cast_zero, add_zero]
  congr 1
  apply List.map_congr_left
  intro k _
  simp only [Function.comp]
  push_cast
  ring

theorem flushRun_expand (start : Int) (count : Nat) (h : 0 < count) :
    flushRun (expandRef ⟨start, count⟩) = [⟨start, count⟩] := by
  rw [expandRef_pos start count h]
  simp only [flushRun, List.length_cons]
  have hlen : (expandRef ⟨start + 1, count - 1⟩).length = count - 1 := by
    simp [expandRef]
  rw [hlen]
  have hc : count - 1 + 1 = count := by omega
  rw [hc]

theorem expandRef_snoc (start : Int) (count : Nat) :
    expandRef ⟨start, count + 1⟩ = expandRef ⟨start, count⟩ ++ [start + count] := by
  simp [expandRef, List.range_succ]

theorem runLoop_eq_groupRuns (rest : List Int) (start : Int) (count : Nat)
    (refs : List M3GBoneReference) (h : 0 < count) :
    runLoop (start + count - 1) (expandRef ⟨start, count⟩) refs rest =
      refs ++ groupRuns start count rest := by
  induction rest generalizing start count refs with
  | nil => simp [runLoop, groupRuns, flushRun_expand start count h]
  | cons v vs ih =>
    rw [runLoop, groupRuns]
    by_cases hv : v = start + count
    · rw [if_pos (show v = start + count - 1 + 1 by omega), if_pos hv]
      have heq := ih start (count + 1) refs (by omega)
      rw [expandRef_snoc] at heq
      have hc : start + (count + 1 : Nat) - 1 = v := by push_cast; omega
      rw [hc] at heq
      rw [← hv] at heq
      exact heq
    · rw [if_neg (show ¬v = start + count - 1 + 1 by omega), if_neg hv]
      rw [flushRun_expand start count h]
      have heq := ih v 1 (refs ++ [⟨start, count⟩]) (by omega)
      have h1 : expandRef ⟨v, 1⟩ = [v] := by
        simp [expandRef, List.range_succ]
      rw [h1] at heq
      have hc : v + (1 : Nat) - 1 = v := by push_cast; omega
      rw [hc] at heq
      rw [heq, List.append_assoc]
      rfl

theorem createReferences_eq_groupRuns (verts : List Int) (h0 : Int) (t : List Int)
    (hs : verts.insertionSort (· ≤ ·) = h0 :: t) (hne : verts ≠ []) :
    createReferences verts = groupRuns h0 1 t := by
  obtain ⟨x, xs, rfl⟩ : ∃ x xs, verts = x :: xs :=
    match verts, hne with
    | y :: ys, _ => ⟨y, ys, rfl⟩
  show runLoop (((x :: xs).insertionSort (· ≤ ·)).headD 0 - 1) [] []
      ((x :: xs).insertionSort (· ≤ ·)) = _
  rw [hs]
  show runLoop (h0 - 1) [] [] (h0 :: t) = _
  rw [runLoop]
  rw [if_pos (show h0 = h0 - 1 + 1 by ring)]
  have h1 : ([] : List Int) ++ [h0] = expandRef ⟨h0, 1⟩ := by
    simp [expandRef, List.range_succ]
  have key := runLoop_eq_groupRuns t h0 1 [] (by omega)
  have h2 : h0 + (1 : Nat) - 1 = h0 := by push_cast; ring
  rw [h2] at key
  rw [h1, key]
  rfl

theorem groupRuns_decode (rest : List Int) (start : Int) (count : Nat) :
    (groupRuns start count rest).flatMap expandRef =
      expandRef ⟨start, count⟩ ++ rest := by
  induction rest generalizing start count with
  | nil => simp [groupRuns]
  | cons w ws ih =>
    rw [groupRuns]
    by_cases hw : w = start + count
    · rw [if_pos hw, ih, expandRef_snoc, List.append_assoc, ← hw]
      rfl
    · rw [if_neg hw]
      rw [List.flatMap_cons, ih]
      have h1 : expandRef ⟨w, 1⟩ = [w] := by
        simp [expandRef, List.range_succ]
      rw [h1]
      rfl

theorem groupRuns_counts (rest : List Int) (start : Int) (count : Nat)
    (h : 0 < count) :
    ∀ r ∈ groupRuns start count rest, 0 < r.vertexCount := by
  induction rest generalizing start count with
  | nil =>
    intro r hr
    simp only [groupRuns, List.mem_singleton] at hr
    subst hr
    exact h
  | cons w ws ih =>
    intro r hr
    rw [groupRuns] at hr
    by_cases hw : w = start + count
    · rw [if_pos hw] at hr
      exact ih start (count + 1) (by omega) r hr
    · rw [if_neg hw] at hr
      rcases List.mem_cons.mp hr with rfl | hr
      · exact h
      · exact ih w 1 (by omega) r hr

theorem groupRuns_head_start (rest : List Int) (start : Int) (count : Nat) :
    ∃ c, (groupRuns start count rest).head? = some ⟨start, c⟩ := by
  induction rest generalizing count with
  | nil => exact ⟨count, rfl⟩
  | cons w ws ih =>
    rw [groupRuns]
    by_cases hw : w = start + count
    · rw [if_pos hw]
      exact ih (count + 1)
    · rw [if_neg hw]
      exact ⟨count, rfl⟩

theorem groupRuns_gap (rest : List Int) (start : Int) (count : Nat)
    (hch : List.Chain (· < ·) (start + count - 1) rest) :
    (groupRuns start count rest).Chain' runGap := by
  induction rest generalizing start count with
  | nil => simp [groupRuns]
  | cons w ws ih =>
    rw [List.chain_cons] at hch
    obtain ⟨hlt, hch⟩ := hch
    rw [groupRuns]
    by_cases hw : w = start + count
    · rw [if_pos hw]
      apply ih start (count + 1)
      have : start + (count + 1 : Nat) - 1 = w := by push_cast; omega
      rw [this]
      exact hch
    · rw [if_neg hw]
      rw [List.chain'_cons']
      constructor
      · intro b hb
        obtain ⟨c, hc⟩ := groupRuns_head_start ws w 1
        rw [hc] at hb
        simp only [Option.mem_def, Option.some_inj] at hb
        subst hb
        show start + count < w
        omega
      · apply ih w 1
        have : w + (1 : Nat) - 1 = w := by push_cast; ring
        rw [this]
        exact hch

/-- C8: for every bone, run encoding sorts the weighted vertex indices
and emits one `(firstVertex, vertexCount)` reference per maximal
contiguous range: the emitted runs expand back exactly to the sorted
index list, each run is nonempty, and consecutive runs are separated by
a gap (the next run starts strictly after the previous run's end + 1,
so every run is maximal).  In particular the vertex set
`{2,3,4,9,10}` (given in any order) encodes to exactly the two runs
`(start=2, count=3)` and `(start=9, count=2)`. -/
theorem bone_run_encoding :
    (∀ verts : List Int, verts ≠ [] → verts.Nodup →
      (createReferences verts).flatMap expandRef = verts.insertionSort (· ≤ ·) ∧
      (createReferences verts).Chain' runGap ∧
      ∀ r ∈ createReferences verts, 0 < r.vertexCount) ∧
    createReferences [9, 2, 10, 3, 4] = [⟨2, 3⟩, ⟨9, 2⟩] := by
  constructor
  · intro verts hne hnd
    have hsorted : (verts.insertionSort (· ≤ ·)).Sorted (· ≤ ·) :=
      List.sorted_insertionSort _ verts
    have hperm : List.Perm (verts.insertionSort (· ≤ ·)) verts :=
      List.perm_insertionSort _ verts
    have hnd' : (verts.insertionSort (· ≤ ·)).Nodup := hperm.nodup_iff.mpr hnd
    have hlt : (verts.insertionSort (· ≤ ·)).Sorted (· < ·) :=
      hsorted.lt_of_le hnd'
    obtain ⟨h0, t, hs⟩ : ∃ h0 t, verts.insertionSort (· ≤ ·) = h0 :: t := by
      cases hs : verts.insertionSort (· ≤ ·) with
      | nil =>
        exact absurd (hperm.symm.trans (hs ▸ List.Perm.refl _)).eq_nil
          (by simpa using hne)
      | cons a l => exact ⟨a, l, rfl⟩
    have hcr := createReferences_eq_groupRuns verts h0 t hs hne
    have hchain : List.Chain (· < ·) h0 t := by
      have := hlt
      rw [hs] at this
      exact List.chain_iff_pairwise.mpr (List.pairwise_cons.mpr
        ⟨fun b hb => List.rel_of_sorted_cons this b hb, (List.sorted_cons.mp this).2⟩)
    refine ⟨?_, ?_, ?_⟩
    · rw [hcr, groupRuns_decode, hs]
      simp [expandRef, List.range_succ]
    · rw [hcr]
      apply groupRuns_gap
      have : h0 + (1 : Nat) - 1 = h0 := by push_cast; ring
      rw [this]
      exact hchain
    · rw [hcr]
      exact groupRuns_counts t h0 1 (by omega)
  · decide

/-- C8 witness: the encoding applied to the vertex set `{2,3,4,9,10}`
expands back to the sorted list, has positive counts and gapped runs. -/
theorem bone_run_encoding_witness :
    (createReferences [9, 2, 10, 3, 4]).flatMap expandRef =
      List.insertionSort (· ≤ ·) ([9, 2, 10, 3, 4] : List Int) ∧
    (createReferences [9, 2, 10, 3, 4]).Chain' runGap ∧
    ∀ r ∈ createReferences [9, 2, 10, 3, 4], 0 < r.vertexCount :=
  bone_run_encoding.1 [9, 2, 10, 3, 4] (by decide) (by decide)

/-- C7: the autoscaling quantization pass is idempotent.  The first run
replaces the `'f'`-typecode float array by an integer component array
(`'b'`/`'h'`), so the guard `self.components.typecode != "f"` makes any
second run return immediately: components, bias and scale are unchanged.
This holds for every starting state, quantized or not. -/
theorem autoscaling_idempotent (s : M3GVertexArray) :
    internalAutoScaling (internalAutoScaling s) = internalAutoScaling s := by
  obtain ⟨cs, cc, auto, uv, bias, scale, comps⟩ := s
  cases comps with
  | ints l => rfl
  | floats l =>
    cases auto with
    | false => rfl
    | true => rfl

theorem setFold_length (mid : Nat → ℚ) (n : Nat) (bias : List ℚ) :
    ((List.range n).foldl (fun b j => b.set j (mid j)) bias).length =
      bias.length := by
  induction n with
  | zero => rfl
  | succ k ih =>
    rw [List.range_succ, List.foldl_append, List.foldl_cons, List.foldl_nil,
      List.length_set]
    exact ih

theorem updateBias_length (c : Nat) (comps : List ℚ) (bias : List ℚ) :
    (updateBias c comps bias).length = bias.length :=
  setFold_length _ c bias

/-- C9: if any scene object has more than one simultaneously-active
(unmuted) NLA track, validation raises before any object is translated,
the exception propagates out of `M3GTranslator.start` and
`M3GExporter.start` uncaught, and the export produces no events at all:
nothing is translated or serialized and no output file is written. -/
theorem nla_validation_aborts (objs : List SceneObj)
    (h : ∃ o ∈ objs, 1 < activeTrackCount o) :
    ∃ e, validateAllNlaTracks objs = .error e ∧
      translatorStart objs = .error e ∧
      exporterStart objs = .error e ∧
      ∀ evs, exporterStart objs ≠ .ok evs := by
  have hval : ∃ e, validateAllNlaTracks objs = .error e := by
    induction objs with
    | nil => simp at h
    | cons o rest ih =>
      rw [validateAllNlaTracks]
      by_cases ho : 1 < activeTrackCount o
      · exact ⟨_, by rw [if_pos ho]⟩
      · rcases h with ⟨o', ho', hcnt⟩
        rcases List.mem_cons.mp ho' with rfl | ho'
        · omega
        · rw [if_neg ho]
          exact ih ⟨o', ho', hcnt⟩
  obtain ⟨e, he⟩ := hval
  have ht : translatorStart objs = .error e := by
    rw [translatorStart, he]
    rfl
  have hx : exporterStart objs = .error e := by
    rw [exporterStart, ht]
    rfl
  exact ⟨e, he, ht, hx, fun evs hevs => by rw [hx] at hevs; exact Except.noConfusion hevs⟩

/-- C9 witness: a single-object scene with two unmuted NLA tracks
aborts with no event. -/
theorem nla_validation_aborts_witness :
    (∃ o ∈ [⟨"Cube", [⟨false⟩, ⟨false⟩]⟩] , 1 < activeTrackCount o) ∧
    ∃ e, validateAllNlaTracks [⟨"Cube", [⟨false⟩, ⟨false⟩]⟩] = .error e ∧
      translatorStart [⟨"Cube", [⟨false⟩, ⟨false⟩]⟩] = .error e ∧
      exporterStart [⟨"Cube", [⟨false⟩, ⟨false⟩]⟩] = .error e ∧
      ∀ evs, exporterStart [⟨"Cube", [⟨false⟩, ⟨false⟩]⟩] ≠ .ok evs :=
  ⟨⟨_, List.mem_cons_self _ _, by decide⟩,
    nla_validation_aborts _ ⟨_, List.mem_cons_self _ _, by decide⟩⟩

/-- C10 counterexample: the cache is not scoped to one export call.  A
first export resolving `a.png` mutates the class-level state away from
its initial value; a later export invocation starts from that mutated
state (not from a fresh cache) and its `getImage` returns the very
`Image2D` object created by the first export, whereas an invocation
with a per-export (fresh) cache would construct a new object.  So state
written by one export is observable by the next, and the two exports'
object graphs share (alias) an object instead of being identical and
independent. -/
theorem image_cache_not_export_scoped :
    (getImage factoryInit "a.png" false).2 ≠ factoryInit ∧
    (getImage (getImage factoryInit "a.png" false).2 "a.png" false).1 =
      (getImage factoryInit "a.png" false).1 ∧
    (getImage { factoryInit with
        nextId := (getImage factoryInit "a.png" false).2.nextId } "a.png" false).1 ≠
      (getImage factoryInit "a.png" false).1 := by
  refine ⟨?_, rfl, ?_⟩ <;> decide

/-- C10 (amended): the deduplication cache is class-level and persists
across export invocations: any path cached by an earlier call — also a
call belonging to an earlier export — is observed by every later
`getImage` call, which returns the cached object unchanged instead of
constructing a fresh one, regardless of the `externalReference`
setting. -/
theorem image_cache_persists (st : ImageFactoryState) (fn : String)
    (ext : Bool) (r : ImageObject) (h : st.images.lookup fn = some r) :
    getImage st fn ext = (r, st) := by
  rw [getImage, h]

/-- C10 witness: the state written by a first export's `getImage` call
is returned verbatim by a later call. -/
theorem image_cache_persists_witness :
    (getImage ⟨[("a.png", ImageObject.image2D 0)], 1⟩ "a.png" false) =
      (ImageObject.image2D 0, ⟨[("a.png", ImageObject.image2D 0)], 1⟩) :=
  image_cache_persists ⟨[("a.png", ImageObject.image2D 0)], 1⟩ "a.png" false
    (ImageObject.image2D 0) (by decide)

theorem before_append_right (r m : Nat) (L L' : List Nat)
    (h : Before r m L) : Before r m (L ++ L') := by
  obtain ⟨i, j, hij, hi, hj⟩ := h
  refine ⟨i, j, hij, ?_, ?_⟩
  · rw [List.get?_append (List.get?_eq_some.mp hi).1]
    exact hi
  · rw [List.get?_append (List.get?_eq_some.mp hj).1]
    exact hj

theorem before_new_last (r n : Nat) (L : List Nat) (h : r ∈ L) :
    Before r n (L ++ [n]) := by
  obtain ⟨i, hi⟩ := List.mem_iff_get.mp h
  refine ⟨i.val, L.length, i.isLt, ?_, ?_⟩
  · rw [List.get?_append i.isLt, List.get?_eq_get i.isLt]
    exact congrArg some hi
  · rw [List.get?_concat_length]

theorem searchDeep_extendsAcc (refs : Nat → List Nat) :
    ∀ fuel n alist, alist <+: searchDeep refs fuel n alist := by
  intro fuel
  induction fuel with
  | zero => exact fun n alist => List.prefix_refl _
  | succ fuel ih =>
    intro n alist
    rw [searchDeep]
    have hfold : ∀ (l : List Nat) acc,
        acc <+: l.foldl (fun acc r => searchDeep refs fuel r acc) acc := by
      intro l
      induction l with
      | nil => exact fun acc => List.prefix_refl _
      | cons x xs ihl =>
        intro acc
        rw [List.foldl_cons]
        exact (ih x acc).trans (ihl _)
    by_cases hn : n ∈ (refs n).foldl (fun acc r => searchDeep refs fuel r acc) alist
    · simpa [hn] using hfold (refs n) alist
    · simp only [hn, if_false]
      exact (hfold (refs n) alist).trans ⟨[n], rfl⟩

theorem fold_searchDeep_extendsAcc (refs : Nat → List Nat) (fuel : Nat) :
    ∀ (l : List Nat) (acc : List Nat),
      acc <+: l.foldl (fun acc r => searchDeep refs fuel r acc) acc := by
  intro l
  induction l with
  | nil => exact fun acc => List.prefix_refl _
  | cons x xs ihl =>
    intro acc
    rw [List.foldl_cons]
    exact (searchDeep_extendsAcc refs fuel x acc).trans (ihl _)

theorem mem_searchDeep_of_mem (refs : Nat → List Nat) (fuel n x : Nat)
    (alist : List Nat) (h : x ∈ alist) : x ∈ searchDeep refs fuel n alist :=
  (searchDeep_extendsAcc refs fuel n alist).subset h

theorem self_mem_searchDeep (refs : Nat → List Nat) (fuel n : Nat)
    (alist : List Nat) (hf : 0 < fuel) : n ∈ searchDeep refs fuel n alist := by
  obtain ⟨f, rfl⟩ : ∃ f, fuel = f + 1 := ⟨fuel - 1, by omega⟩
  rw [searchDeep]
  by_cases hn : n ∈ (refs n).foldl (fun acc r => searchDeep refs f r acc) alist
  · simp [hn]
  · simp [hn]

theorem mem_fold_searchDeep (refs : Nat → List Nat) (fuel : Nat) (hf : 0 < fuel) :
    ∀ (l : List Nat) (acc : List Nat) (r : Nat), r ∈ l →
      r ∈ l.foldl (fun acc r => searchDeep refs fuel r acc) acc := by
  intro l
  induction l with
  | nil => intro acc r hr; simp at hr
  | cons x xs ihl =>
    intro acc r hr
    rw [List.foldl_cons]
    rcases List.mem_cons.mp hr with rfl | hr
    · exact (fold_searchDeep_extendsAcc refs fuel xs _).subset
        (self_mem_searchDeep refs fuel r acc hf)
    · exact ihl _ r hr

theorem searchDeep_closed (refs : Nat → List Nat) (rk : Nat → Nat)
    (hrk : ∀ a b, b ∈ refs a → rk b < rk a) :
    ∀ fuel n alist, rk n < fuel → ClosedList refs alist →
      ClosedList refs (searchDeep refs fuel n alist) := by
  intro fuel
  induction fuel with
  | zero => intro n alist h; omega
  | succ fuel ih =>
    intro n alist hrkn hcl
    rw [searchDeep]
    have hfoldC : ∀ (l : List Nat), (∀ r ∈ l, rk r < fuel) →
        ∀ acc, ClosedList refs acc →
          ClosedList refs (l.foldl (fun acc r => searchDeep refs fuel r acc) acc) := by
      intro l
      induction l with
      | nil => exact fun _ acc hacc => hacc
      | cons x xs ihl =>
        intro hl acc hacc
        rw [List.foldl_cons]
        exact ihl (fun r hr => hl r (List.mem_cons_of_mem x hr)) _
          (ih x acc (hl x (List.mem_cons_self x xs)) hacc)
    have hrefsrk : ∀ r ∈ refs n, rk r < fuel := fun r hr => by
      have := hrk n r hr
      omega
    have hlC : ClosedList refs
        ((refs n).foldl (fun acc r => searchDeep refs fuel r acc) alist) :=
      hfoldC (refs n) hrefsrk alist hcl
    by_cases hn : n ∈ (refs n).foldl (fun acc r => searchDeep refs fuel r acc) alist
    · simp only [hn, if_true]
      exact hlC
    · simp only [hn, if_false]
      intro m hm r hr
      rcases List.mem_append.mp hm with hm | hm
      · exact before_append_right r m _ [n] (hlC m hm r hr)
      · have hmn : m = n := by simpa using hm
        subst hmn
        have hfz : 0 < fuel := by
          have := hrk m r hr
          omega
        exact before_new_last r m _
          (mem_fold_searchDeep refs fuel hfz (refs m) alist r hr)

theorem searchDeep_nodup (refs : Nat → List Nat) :
    ∀ fuel n alist, alist.Nodup → (searchDeep refs fuel n alist).Nodup := by
  intro fuel
  induction fuel with
  | zero => exact fun n alist h => h
  | succ fuel ih =>
    intro n alist hnd
    rw [searchDeep]
    have hfold : ∀ (l : List Nat) acc, acc.Nodup →
        (l.foldl (fun acc r => searchDeep refs fuel r acc) acc).Nodup := by
      intro l
      induction l with
      | nil => exact fun acc h => h
      | cons x xs ihl =>
        intro acc h
        rw [List.foldl_cons]
        exact ihl _ (ih x acc h)
    by_cases hn : n ∈ (refs n).foldl (fun acc r => searchDeep refs fuel r acc) alist
    · simp only [hn, if_true]
      exact hfold (refs n) alist hnd
    · simp only [hn, if_false]
      exact (List.perm_append_singleton n _).nodup_iff.mpr
        (List.nodup_cons.mpr ⟨hn, hfold (refs n) alist hnd⟩)

/-- C4: on an acyclic object graph (acyclicity witnessed by a rank
function `rk` strictly decreasing along direct references, with enough
fuel for the root — which makes the fuel-indexed model agree with the
Python recursion), the closure walk starting from the root with an empty
accumulator collects the root, produces a list with no duplicate object
identities, and places every direct reference of every collected object
(children, active camera, background, buffers, appearances, materials,
textures, images, animation tracks, keyframe sequences, controllers,
skeletons — whatever `refs` lists for that object) at a strictly earlier
position than the referencing object itself. -/
theorem closure_walk_spec (refs : Nat → List Nat) (rk : Nat → Nat)
    (hrk : ∀ a b, b ∈ refs a → rk b < rk a) (root fuel : Nat)
    (hfuel : rk root < fuel) :
    root ∈ searchDeep refs fuel root [] ∧
    (searchDeep refs fuel root []).Nodup ∧
    ∀ m ∈ searchDeep refs fuel root [], ∀ r ∈ refs m,
      Before r m (searchDeep refs fuel root []) :=
  ⟨self_mem_searchDeep refs fuel root [] (by omega),
   searchDeep_nodup refs fuel root [] List.nodup_nil,
   searchDeep_closed refs rk hrk fuel root [] hfuel
     (fun m hm => absurd hm (List.not_mem_nil m))⟩

/-- C4 witness: on the diamond graph the walk yields `[3, 1, 2, 0]`
(the shared object 3 appearing once, before both referers), and the
theorem's conclusions hold for it. -/
theorem closure_walk_spec_witness :
    searchDeep exRefs 4 0 [] = [3, 1, 2, 0] ∧
    (0 ∈ searchDeep exRefs 4 0 [] ∧
      (searchDeep exRefs 4 0 []).Nodup ∧
      ∀ m ∈ searchDeep exRefs 4 0 [], ∀ r ∈ exRefs m,
        Before r m (searchDeep exRefs 4 0 [])) := by
  constructor
  · decide
  · refine closure_walk_spec exRefs (fun n => 3 - n) ?_ 0 4 (by decide)
    intro a b hb
    rw [exRefs] at hb
    split_ifs at hb with h0 h1 h2
    · subst h0
      rcases List.mem_cons.mp hb with rfl | hb
      · decide
      · have : b = 2 := by simpa using hb
        subst this
        decide
    · subst h1
      have : b = 3 := by simpa using hb
      subst this
      decide
    · subst h2
      have : b = 3 := by simpa using hb
      subst this
      decide
    · simp at hb

end M3G

